import Mathlib

/-!
Verification of the NE graph-neural-network layer library (`layers.py`).

The numeric code runs on IEEE floating point.  Two shallow embeddings are
used here:

* `FV` — an "extended value" type `fin x | pinf | ninf | nan` over exact
  reals, with IEEE-style propagation rules for the special values.  It is
  used for the code paths whose behaviour on degenerate inputs is exactly
  the question (`GCNFilter._localpool` with zero-degree nodes,
  `MeanAggregator.call` with empty neighbour sets), where an idealized
  real-number embedding would silently erase the `inf`/`nan` behaviour of
  `tf.pow(0.0, -0.5)` and of a mean over an empty axis.

* plain real-valued functions `Fin m → Fin n → ℝ` — for the algebraic and
  analytic claims (attention softmax, Chebyshev recursion, recurrent
  cells), where rounding plays no role in the stated properties.

Dropout layers are modelled as the identity: every claim under study is
stated for inference mode (dropout disabled), and `keras.layers.Dropout`
is the identity outside of training.
-/

namespace NE

open scoped Classical

noncomputable section

/-! ## IEEE-style extended values -/

/-- An IEEE-754-style scalar: a finite real, `+∞`, `-∞`, or `nan`.
Signed zero is not modelled; no code path under study distinguishes it. -/
inductive FV where
  | fin (x : ℝ)
  | pinf
  | ninf
  | nan

namespace FV

/-- IEEE addition: `nan` is absorbing, opposite infinities give `nan`. -/
def add : FV → FV → FV
  | fin x, fin y => fin (x + y)
  | fin _, pinf => pinf
  | fin _, ninf => ninf
  | fin _, nan => nan
  | pinf, fin _ => pinf
  | pinf, pinf => pinf
  | pinf, ninf => nan
  | pinf, nan => nan
  | ninf, fin _ => ninf
  | ninf, pinf => nan
  | ninf, ninf => ninf
  | ninf, nan => nan
  | nan, _ => nan

/-- IEEE multiplication: `nan` is absorbing and `0 * ±∞ = nan`. -/
def mul : FV → FV → FV
  | fin x, fin y => fin (x * y)
  | fin x, pinf => if x = 0 then nan else if 0 < x then pinf else ninf
  | fin x, ninf => if x = 0 then nan else if 0 < x then ninf else pinf
  | fin _, nan => nan
  | pinf, fin y => if y = 0 then nan else if 0 < y then pinf else ninf
  | pinf, pinf => pinf
  | pinf, ninf => ninf
  | pinf, nan => nan
  | ninf, fin y => if y = 0 then nan else if 0 < y then ninf else pinf
  | ninf, pinf => ninf
  | ninf, ninf => pinf
  | ninf, nan => nan
  | nan, _ => nan

/-- IEEE division; in particular `0 / 0 = nan` and `x / 0 = ±∞` for `x ≠ 0`. -/
def div : FV → FV → FV
  | fin x, fin y =>
      if y = 0 then (if x = 0 then nan else if 0 < x then pinf else ninf)
      else fin (x / y)
  | fin _, pinf => fin 0
  | fin _, ninf => fin 0
  | fin _, nan => nan
  | pinf, fin y => if 0 ≤ y then pinf else ninf
  | pinf, pinf => nan
  | pinf, ninf => nan
  | pinf, nan => nan
  | ninf, fin y => if 0 ≤ y then ninf else pinf
  | ninf, pinf => nan
  | ninf, ninf => nan
  | ninf, nan => nan
  | nan, _ => nan

/-- IEEE `pow(x, -0.5)` as computed by `tf.pow(·, -0.5)`:
`pow(0, -0.5) = +∞`, `pow(x, -0.5) = nan` for `x < 0`,
`pow(±∞, -0.5) = 0`, and the real value on positive finite input. -/
def powNegHalf : FV → FV
  | fin x => if x = 0 then pinf else if x < 0 then nan else fin (x ^ (-(1 : ℝ) / 2))
  | pinf => fin 0
  | ninf => fin 0
  | nan => nan

/-- Left fold of IEEE addition over a list, starting from `0`, modelling a
tensor reduction over one axis. -/
def total (l : List FV) : FV := l.foldr add (fin 0)

@[simp] theorem add_fin (x y : ℝ) : add (fin x) (fin y) = fin (x + y) := rfl

@[simp] theorem mul_fin (x y : ℝ) : mul (fin x) (fin y) = fin (x * y) := rfl

@[simp] theorem add_nan_left (v : FV) : add nan v = nan := rfl

@[simp] theorem mul_nan_left (v : FV) : mul nan v = nan := rfl

@[simp] theorem add_nan_right (v : FV) : add v nan = nan := by cases v <;> rfl

@[simp] theorem mul_nan_right (v : FV) : mul v nan = nan := by cases v <;> rfl

theorem total_ofFn_fin {n : ℕ} (f : Fin n → ℝ) :
    total (List.ofFn fun i => fin (f i)) = fin (∑ i, f i) := by
  induction n with
  | zero => simp [total]
  | succ m ih =>
      rw [List.ofFn_succ]
      have hstep : total (fin (f 0) :: List.ofFn fun i : Fin m => fin (f i.succ)) =
          add (fin (f 0)) (total (List.ofFn fun i : Fin m => fin (f i.succ))) := rfl
      rw [hstep, ih (fun i : Fin m => f i.succ), add_fin, Fin.sum_univ_succ]

end FV

/-- Matrix product over IEEE values; each entry is the IEEE fold of the
pairwise products, mirroring `tf.matmul`. -/
def mmFV {m k n : ℕ} (M : Fin m → Fin k → FV) (N : Fin k → Fin n → FV) :
    Fin m → Fin n → FV :=
  fun i j => FV.total (List.ofFn fun t => (M i t).mul (N t j))

/-- `tf.linalg.diag`: a diagonal matrix from a vector, with finite zeros
off the diagonal. -/
def diagFV {n : ℕ} (v : Fin n → FV) : Fin n → Fin n → FV :=
  fun i j => if i = j then v i else FV.fin 0

/-- `tf.transpose` on a rank-2 tensor. -/
def transposeFV {m n : ℕ} (M : Fin m → Fin n → FV) : Fin n → Fin m → FV :=
  fun i j => M j i

/-- `tf.reduce_sum(·, axis=-1)`: the IEEE row-sum vector. -/
def rowSumFV {m n : ℕ} (M : Fin m → Fin n → FV) : Fin m → FV :=
  fun i => FV.total (List.ofFn fun j => M i j)

namespace GCNFilter

/-- `GCNFilter._localpool` (layers.py:214-218), on IEEE values:
`d = diag(pow(row_sums, -0.5))`, output `stack([(A·d)ᵀ·d])`.
The source applies `tf.pow(·, -0.5)` to the degree vector with no guard,
so a zero row sum produces `+∞` (see `FV.powNegHalf`). -/
def localpool {n : ℕ} (A : Fin n → Fin n → FV) : Fin 1 → Fin n → Fin n → FV :=
  fun _ =>
    mmFV (transposeFV (mmFV A (diagFV fun i => (rowSumFV A i).powNegHalf)))
      (diagFV fun i => (rowSumFV A i).powNegHalf)

end GCNFilter

/-- The degree entry `d_i^{-1/2}` as the spec words it: a zero-degree node
yields a zero entry, not infinity.  Used only to compare the spec against
the source computation. -/
def specDegInvSqrt {n : ℕ} (A : Fin n → Fin n → ℝ) (i : Fin n) : ℝ :=
  if (∑ j, A i j) = 0 then 0 else (∑ j, A i j) ^ (-(1 : ℝ) / 2)

/-- The normalized adjacency `D^{-1/2} · Aᵀ · D^{-1/2}` as the spec words
it, entrywise. -/
def specNormAdj {n : ℕ} (A : Fin n → Fin n → ℝ) : Fin n → Fin n → ℝ :=
  fun i j => specDegInvSqrt A i * A j i * specDegInvSqrt A j

/-- The 2×2 adjacency whose first node has degree zero: row 0 is `(0, 0)`,
row 1 is `(1, 1)`. -/
def adjZeroDeg : Fin 2 → Fin 2 → FV :=
  fun i _ => if i = 0 then FV.fin 0 else FV.fin 1

/-- C2: the claim states that in `GCNFilter._localpool` a zero-degree node
yields a zero diagonal entry of `D^{-1/2}` — not infinity — and an output
free of `inf`/`nan`.  The source computes `tf.pow(row_sum, -0.5)` with no
zero guard, so on the adjacency `adjZeroDeg` (node 0 has degree 0) the
diagonal entry is `+∞` and the output contains `nan`: the code contradicts
the claimed fallback. -/
theorem claim_C2_localpool_zero_degree :
    FV.powNegHalf (rowSumFV adjZeroDeg 0) = FV.pinf ∧
      GCNFilter.localpool adjZeroDeg 0 0 0 = FV.nan := by
  constructor
  · norm_num [rowSumFV, adjZeroDeg, FV.total, List.ofFn_succ, FV.add, FV.powNegHalf]
  · norm_num [GCNFilter.localpool, mmFV, transposeFV, diagFV, rowSumFV, adjZeroDeg,
      FV.total, List.ofFn_succ, FV.add, FV.mul, FV.powNegHalf]

/-- The 1×1 all-zero adjacency: symmetric with non-negative entries, but
its single node has degree zero. -/
def adjZero1 : Fin 1 → Fin 1 → FV := fun _ _ => FV.fin 0

/-- The real-valued counterpart of `adjZero1`. -/
def adjZero1R : Fin 1 → Fin 1 → ℝ := fun _ _ => 0

/-- C6, counterexample: the claim quantifies over every adjacency with
non-negative entries, but on the symmetric 1×1 zero adjacency the source
output entry is `nan` (via `pow(0, -0.5) = +∞` and `0 · ∞ = nan`), which
differs from the spec value `D^{-1/2}·Aᵀ·D^{-1/2} = 0`. -/
theorem claim_C6_counterexample :
    GCNFilter.localpool adjZero1 0 0 0 = FV.nan ∧
      specNormAdj adjZero1R 0 0 = 0 ∧
      GCNFilter.localpool adjZero1 0 0 0 ≠ FV.fin (specNormAdj adjZero1R 0 0) := by
  have h1 : GCNFilter.localpool adjZero1 0 0 0 = FV.nan := by
    norm_num [GCNFilter.localpool, mmFV, transposeFV, diagFV, rowSumFV, adjZero1,
      FV.total, List.ofFn_succ, FV.add, FV.mul, FV.powNegHalf]
  have h2 : specNormAdj adjZero1R 0 0 = 0 := by
    norm_num [specNormAdj, specDegInvSqrt, adjZero1R]
  refine ⟨h1, h2, ?_⟩
  rw [h1, h2]
  exact fun h => FV.noConfusion h

/-- C6, amended: restricted to adjacencies with non-negative finite entries
and strictly positive row sums (no zero-degree node), the localpool output
stack has its single element equal to `D^{-1/2}·Aᵀ·D^{-1/2}` entrywise, and
that element is symmetric whenever the adjacency is. -/
theorem claim_C6_localpool_normalized {n : ℕ} (A : Fin n → Fin n → FV)
    (Ar : Fin n → Fin n → ℝ) (hA : ∀ i j, A i j = FV.fin (Ar i j))
    (hnn : ∀ i j, 0 ≤ Ar i j) (hdeg : ∀ i, 0 < ∑ j, Ar i j) :
    (∀ s i j, GCNFilter.localpool A s i j = FV.fin (specNormAdj Ar i j)) ∧
      ((∀ i j, Ar i j = Ar j i) →
        ∀ s i j, GCNFilter.localpool A s i j = GCNFilter.localpool A s j i) := by
  set dv : Fin n → ℝ := fun i => (∑ j, Ar i j) ^ (-(1 : ℝ) / 2) with hdv
  have hrow : ∀ i, rowSumFV A i = FV.fin (∑ j, Ar i j) := by
    intro i
    unfold rowSumFV
    rw [congrArg List.ofFn (funext fun j => hA i j), FV.total_ofFn_fin]
  have hpow : ∀ i, (rowSumFV A i).powNegHalf = FV.fin (dv i) := by
    intro i
    rw [hrow]
    simp only [FV.powNegHalf]
    rw [if_neg (ne_of_gt (hdeg i)), if_neg (not_lt.mpr (le_of_lt (hdeg i)))]
  have hd : ∀ i j, diagFV (fun i => (rowSumFV A i).powNegHalf) i j =
      FV.fin (if i = j then dv i else 0) := by
    intro i j
    unfold diagFV
    by_cases h : i = j
    · simp [h, hpow]
    · simp [h]
  have hm : ∀ i j, mmFV A (diagFV fun i => (rowSumFV A i).powNegHalf) i j =
      FV.fin (Ar i j * dv j) := by
    intro i j
    unfold mmFV
    rw [congrArg List.ofFn (funext fun t => by rw [hA, hd, FV.mul_fin]),
      FV.total_ofFn_fin]
    congr 1
    simp [mul_ite, mul_zero]
  have hout : ∀ s i j, GCNFilter.localpool A s i j =
      FV.fin (specNormAdj Ar i j) := by
    intro s i j
    have hrepr : GCNFilter.localpool A s i j =
        FV.total (List.ofFn fun t =>
          ((mmFV A (diagFV fun r => (rowSumFV A r).powNegHalf)) t i).mul
            ((diagFV fun r => (rowSumFV A r).powNegHalf) t j)) := rfl
    rw [hrepr,
      congrArg List.ofFn (funext fun t => by rw [hm, hd, FV.mul_fin]),
      FV.total_ofFn_fin]
    congr 1
    rw [show (∑ t, Ar t i * dv i * if t = j then dv t else 0) =
        ∑ t, if t = j then Ar t i * dv i * dv t else 0 from by
      refine Finset.sum_congr rfl fun t _ => ?_
      by_cases h : t = j <;> simp [h]]
    rw [Finset.sum_ite_eq' Finset.univ j fun t => Ar t i * dv i * dv t]
    simp only [Finset.mem_univ, if_true]
    unfold specNormAdj specDegInvSqrt
    rw [if_neg (ne_of_gt (hdeg i)), if_neg (ne_of_gt (hdeg j))]
    ring
  refine ⟨hout, fun hsym s i j => ?_⟩
  rw [hout, hout]
  unfold specNormAdj
  rw [hsym j i]
  ring_nf

/-- The 1×1 all-ones adjacency, as IEEE values. -/
def adjOne1 : Fin 1 → Fin 1 → FV := fun _ _ => FV.fin 1

/-- The real-valued counterpart of `adjOne1`. -/
def adjOne1R : Fin 1 → Fin 1 → ℝ := fun _ _ => 1

/-- Witness for the amended C6 theorem: its hypotheses hold at the 1×1
all-ones adjacency, and the conclusion follows by applying the theorem. -/
theorem claim_C6_localpool_normalized_witness :
    (∀ i : Fin 1, 0 < ∑ j, adjOne1R i j) ∧
      (∀ s i j, GCNFilter.localpool adjOne1 s i j =
        FV.fin (specNormAdj adjOne1R i j)) := by
  have hdeg : ∀ i : Fin 1, 0 < ∑ j, adjOne1R i j := by
    intro i
    simp [adjOne1R]
  exact ⟨hdeg, (claim_C6_localpool_normalized adjOne1 adjOne1R
    (fun _ _ => rfl) (fun _ _ => by norm_num [adjOne1R]) hdeg).1⟩

/-! ## Real-valued tensor operations

For the algebraic claims the float tensors are idealized as real-valued
matrices, written as plain functions so every entry formula is explicit. -/

/-- Real matrix product, mirroring `tf.matmul` on rank-2 tensors. -/
def mmR {m k n : ℕ} (M : Fin m → Fin k → ℝ) (N : Fin k → Fin n → ℝ) :
    Fin m → Fin n → ℝ :=
  fun i j => ∑ t, M i t * N t j

/-- `tf.eye`: the identity matrix. -/
def eyeR (n : ℕ) : Fin n → Fin n → ℝ := fun i j => if i = j then 1 else 0

namespace GCNFilter

/-- The diagonal factor `diag(pow(row_sums, -0.5))` of `_chebyshev`
(layers.py:221), idealized over the reals (the Chebyshev claim does not
depend on its value; the float behaviour at a zero row sum is analysed
separately through `FV.powNegHalf`). -/
def dpowR {n : ℕ} (A : Fin n → Fin n → ℝ) : Fin n → Fin n → ℝ :=
  fun i j => if i = j then (∑ t, A i t) ^ (-(1 : ℝ) / 2) else 0

/-- `adj_norm = (A·d)ᵀ·d` of `_chebyshev` (layers.py:222). -/
def adjNormR {n : ℕ} (A : Fin n → Fin n → ℝ) : Fin n → Fin n → ℝ :=
  mmR (fun i j => mmR A (dpowR A) j i) (dpowR A)

/-- `laplacian = I - adj_norm` (layers.py:223). -/
def laplacianR {n : ℕ} (A : Fin n → Fin n → ℝ) : Fin n → Fin n → ℝ :=
  fun i j => eyeR n i j - adjNormR A i j

/-- The largest eigenvalue, modelling
`tf.math.reduce_max(tf.linalg.eigvalsh(M))` (layers.py:224): the supremum
of the set of eigenvalues of `M`. -/
def largestEigval {n : ℕ} (M : Fin n → Fin n → ℝ) : ℝ :=
  sSup {mu : ℝ | ∃ v : Fin n → ℝ, v ≠ 0 ∧ ∀ i, (∑ j, M i j * v j) = mu * v i}

/-- `scaled_laplacian = (2 / largest_eigval) * laplacian - I`
(layers.py:225). -/
def scaledLaplacianR {n : ℕ} (A : Fin n → Fin n → ℝ) : Fin n → Fin n → ℝ :=
  fun i j => 2 / largestEigval (laplacianR A) * laplacianR A i j - eyeR n i j

/-- The Chebyshev basis elements built by the loop of `_chebyshev`
(layers.py:226-231): `T 0 = I`, `T 1 = scaled_laplacian`,
`T (k+2) = 2·scaled_laplacian·T (k+1) - T k`. -/
def chebT {n : ℕ} (A : Fin n → Fin n → ℝ) : ℕ → (Fin n → Fin n → ℝ)
  | 0 => eyeR n
  | 1 => scaledLaplacianR A
  | k + 2 => fun i j =>
      2 * mmR (scaledLaplacianR A) (chebT A (k + 1)) i j - chebT A k i j

/-- `GCNFilter._chebyshev` (layers.py:220-233): the stacked list
`[T 0, …, T support]`. -/
def chebyshev {n : ℕ} (A : Fin n → Fin n → ℝ) (support : ℕ) :
    List (Fin n → Fin n → ℝ) :=
  List.ofFn fun k : Fin (support + 1) => chebT A k

end GCNFilter

/-- C3: with support `s ≥ 2` the chebyshev filter stacks `s + 1` elements
`T 0 … T s`, where `T 0 = I`, `T 1` is the scaled Laplacian
`(2/λ_max)·L - I`, every element with index `2 ≤ k ≤ s` equals
`2·L̃·T (k-1) - T (k-2)`, and in particular the third stacked element is
`2·L̃·T 1 - T 0`. -/
theorem claim_C3_chebyshev_recursion {n : ℕ} (A : Fin n → Fin n → ℝ)
    (s : ℕ) (hs : 2 ≤ s) :
    (GCNFilter.chebyshev A s).length = s + 1 ∧
      (GCNFilter.chebyshev A s).get? 0 = some (eyeR n) ∧
      (GCNFilter.chebyshev A s).get? 1 = some (GCNFilter.scaledLaplacianR A) ∧
      (∀ k, 2 ≤ k → k ≤ s →
        (GCNFilter.chebyshev A s).get? k = some fun i j =>
          2 * mmR (GCNFilter.scaledLaplacianR A) (GCNFilter.chebT A (k - 1)) i j -
            GCNFilter.chebT A (k - 2) i j) ∧
      (GCNFilter.chebyshev A s).get? 2 = some fun i j =>
        2 * mmR (GCNFilter.scaledLaplacianR A) (GCNFilter.scaledLaplacianR A) i j -
          eyeR n i j := by
  have hget : ∀ k, k ≤ s →
      (GCNFilter.chebyshev A s).get? k = some (GCNFilter.chebT A k) := by
    intro k hk
    have hk1 : k < s + 1 := Nat.lt_succ_of_le hk
    unfold GCNFilter.chebyshev
    rw [List.get?_eq_get (by simpa using hk1)]
    simp only [List.get_eq_getElem, List.getElem_ofFn]
  have hrec : ∀ k, 2 ≤ k → GCNFilter.chebT A k = fun i j =>
      2 * mmR (GCNFilter.scaledLaplacianR A) (GCNFilter.chebT A (k - 1)) i j -
        GCNFilter.chebT A (k - 2) i j := by
    intro k hk
    obtain ⟨m, rfl⟩ : ∃ m, k = m + 2 := ⟨k - 2, by omega⟩
    simp [GCNFilter.chebT]
  refine ⟨by simp [GCNFilter.chebyshev], hget 0 (by omega), hget 1 (by omega),
    fun k hk2 hks => ?_, ?_⟩
  · rw [hget k hks, hrec k hk2]
  · rw [hget 2 hs, hrec 2 (le_refl 2)]
    norm_num [GCNFilter.chebT]

/-- Witness for C3 at the 2×2 identity adjacency with support 2. -/
theorem claim_C3_chebyshev_recursion_witness :
    2 ≤ 2 ∧ (GCNFilter.chebyshev (eyeR 2) 2).length = 2 + 1 ∧
      (GCNFilter.chebyshev (eyeR 2) 2).get? 2 = some fun i j =>
        2 * mmR (GCNFilter.scaledLaplacianR (eyeR 2))
            (GCNFilter.scaledLaplacianR (eyeR 2)) i j - eyeR 2 i j := by
  have h := claim_C3_chebyshev_recursion (eyeR 2) 2 (by decide)
  exact ⟨by decide, h.1, h.2.2.2.2⟩

/-! ## GraphAttention -/

/-- `keras.layers.LeakyReLU(slope)` applied to a scalar. -/
def leakyReLU (slope x : ℝ) : ℝ := if x < 0 then slope * x else x

namespace GraphAttention

/-- The per-head projected features `X · kernel` (layers.py:128). -/
def features {n f u : ℕ} (X : Fin n → Fin f → ℝ) (kernel : Fin f → Fin u → ℝ) :
    Fin n → Fin u → ℝ :=
  mmR X kernel

/-- The pre-mask pairwise logits of one head (layers.py:130-134):
`dense[i][j] = LeakyReLU(0.2, features·a_self at i + features·a_neigh at j)`. -/
def logits {n f u : ℕ} (X : Fin n → Fin f → ℝ) (kernel : Fin f → Fin u → ℝ)
    (aSelf aNeigh : Fin u → ℝ) : Fin n → Fin n → ℝ :=
  fun i j => leakyReLU 0.2
    ((∑ t, features X kernel i t * aSelf t) + (∑ t, features X kernel j t * aNeigh t))

/-- The additively masked logits (layers.py:135-136):
`dense + (1 - A) * (-10e9)`. -/
def masked {n f u : ℕ} (X : Fin n → Fin f → ℝ) (kernel : Fin f → Fin u → ℝ)
    (aSelf aNeigh : Fin u → ℝ) (A : Fin n → Fin n → ℝ) : Fin n → Fin n → ℝ :=
  fun i j => logits X kernel aSelf aNeigh i j + (1 - A i j) * (-(10 : ℝ) ^ 10)

/-- The per-head attention matrix `tf.nn.softmax(dense)` (layers.py:137),
row-wise softmax of the masked logits. -/
def attn {n f u : ℕ} (X : Fin n → Fin f → ℝ) (kernel : Fin f → Fin u → ℝ)
    (aSelf aNeigh : Fin u → ℝ) (A : Fin n → Fin n → ℝ) : Fin n → Fin n → ℝ :=
  fun i j => Real.exp (masked X kernel aSelf aNeigh A i j) /
    ∑ t, Real.exp (masked X kernel aSelf aNeigh A i t)

end GraphAttention

/-- A 1×1 zero feature matrix over a 1-node graph. -/
def oneNodeZeroF : Fin 1 → Fin 1 → ℝ := fun _ _ => 0

/-- The 1×1 zero adjacency: the single node has no self-loop. -/
def oneNodeNoLoopA : Fin 1 → Fin 1 → ℝ := fun _ _ => 0

/-- A zero 2×1 feature matrix (two nodes, one feature). -/
def zeroF2 : Fin 2 → Fin 1 → ℝ := fun _ _ => 0

/-- A zero 1×1 kernel. -/
def zeroK : Fin 1 → Fin 1 → ℝ := fun _ _ => 0

/-- A zero attention vector. -/
def zeroV : Fin 1 → ℝ := fun _ => 0

/-- C1, counterexample: the claim asserts the attention weight from `i` to
`j` is approximately 0 after softmax for every pair with `A[i][j] = 0`.  On
a single node with no self-loop the whole row is masked, softmax of the row
is uniform, and the weight is exactly 1 — not approximately 0 — even though
`A[0][0] = 0`. -/
theorem claim_C1_counterexample :
    oneNodeNoLoopA 0 0 = 0 ∧
      GraphAttention.attn oneNodeZeroF zeroK zeroV zeroV oneNodeNoLoopA 0 0 = 1 := by
  refine ⟨rfl, ?_⟩
  rw [GraphAttention.attn, Fin.sum_univ_one,
    div_self (Real.exp_ne_zero _)]

/-- C1, amended: rows of the per-head attention matrix always sum to 1;
and whenever row `i` contains some edge (`A i k = 1`) the attention weight
toward any non-edge `j` (`A i j = 0`) is at most
`exp(2·B - 10^10)` for any bound `B` on the pre-mask logits, hence below
`1/10^9` whenever `B ≤ 10^9`.  The only change from the claim as stated is
the requirement that row `i` not be fully masked. -/
theorem claim_C1_attention_masking {n f u : ℕ} (X : Fin n → Fin f → ℝ)
    (kernel : Fin f → Fin u → ℝ) (aSelf aNeigh : Fin u → ℝ)
    (A : Fin n → Fin n → ℝ) (B : ℝ)
    (hB : ∀ i j, |GraphAttention.logits X kernel aSelf aNeigh i j| ≤ B)
    (hB9 : B ≤ 10 ^ 9) (i j k : Fin n) (hj : A i j = 0) (hk : A i k = 1) :
    (∀ r : Fin n, ∑ c, GraphAttention.attn X kernel aSelf aNeigh A r c = 1) ∧
      GraphAttention.attn X kernel aSelf aNeigh A i j ≤
        Real.exp (2 * B - 10 ^ 10) ∧
      GraphAttention.attn X kernel aSelf aNeigh A i j < 1 / 10 ^ 9 := by
  have hSpos : ∀ r : Fin n,
      0 < ∑ t, Real.exp (GraphAttention.masked X kernel aSelf aNeigh A r t) :=
    fun r => Finset.sum_pos (fun t _ => Real.exp_pos _) ⟨r, Finset.mem_univ r⟩
  have hsum : ∀ r : Fin n,
      ∑ c, GraphAttention.attn X kernel aSelf aNeigh A r c = 1 := by
    intro r
    rw [show (∑ c, GraphAttention.attn X kernel aSelf aNeigh A r c) =
        (∑ c, Real.exp (GraphAttention.masked X kernel aSelf aNeigh A r c)) /
          ∑ t, Real.exp (GraphAttention.masked X kernel aSelf aNeigh A r t) from
      (Finset.sum_div _ _ _).symm]
    exact div_self (ne_of_gt (hSpos r))
  have hmaskj : GraphAttention.masked X kernel aSelf aNeigh A i j =
      GraphAttention.logits X kernel aSelf aNeigh i j - 10 ^ 10 := by
    unfold GraphAttention.masked
    rw [hj]
    ring
  have hmaskk : GraphAttention.masked X kernel aSelf aNeigh A i k =
      GraphAttention.logits X kernel aSelf aNeigh i k := by
    unfold GraphAttention.masked
    rw [hk]
    ring
  have hterm : Real.exp (GraphAttention.masked X kernel aSelf aNeigh A i k) ≤
      ∑ t, Real.exp (GraphAttention.masked X kernel aSelf aNeigh A i t) :=
    Finset.single_le_sum (fun t _ => (Real.exp_pos _).le) (Finset.mem_univ k)
  have hbound : GraphAttention.attn X kernel aSelf aNeigh A i j ≤
      Real.exp (2 * B - 10 ^ 10) := by
    have h1 : GraphAttention.attn X kernel aSelf aNeigh A i j ≤
        Real.exp (GraphAttention.masked X kernel aSelf aNeigh A i j) /
          Real.exp (GraphAttention.masked X kernel aSelf aNeigh A i k) :=
      div_le_div_of_nonneg_left (Real.exp_pos _).le (Real.exp_pos _) hterm
    rw [← Real.exp_sub] at h1
    refine h1.trans (Real.exp_le_exp.mpr ?_)
    rw [hmaskj, hmaskk]
    have hj' := (abs_le.mp (hB i j)).2
    have hk' := (abs_le.mp (hB i k)).1
    linarith
  refine ⟨hsum, hbound, hbound.trans_lt ?_⟩
  have h2 : Real.exp (2 * B - 10 ^ 10) ≤ Real.exp (-(8 : ℝ) * 10 ^ 9) :=
    Real.exp_le_exp.mpr (by linarith)
  refine h2.trans_lt ?_
  rw [show (-(8 : ℝ) * 10 ^ 9) = -((8 : ℝ) * 10 ^ 9) from by ring, Real.exp_neg]
  rw [show (1 : ℝ) / 10 ^ 9 = ((10 : ℝ) ^ 9)⁻¹ from one_div _]
  have hlt : (10 : ℝ) ^ 9 < Real.exp ((8 : ℝ) * 10 ^ 9) := by
    have := Real.add_one_le_exp ((8 : ℝ) * 10 ^ 9)
    nlinarith
  exact inv_lt_inv_of_lt (by positivity) hlt

/-- A 2-node adjacency with `A 0 0 = 0` and every other entry 1. -/
def twoNodeA : Fin 2 → Fin 2 → ℝ := fun i j => if i = 0 ∧ j = 0 then 0 else 1

/-- Witness for the amended C1 theorem at a 2-node graph with all-zero
features and kernels, bound `B = 0`, non-edge `(0,0)` and edge `(0,1)`. -/
theorem claim_C1_attention_masking_witness :
    (∀ i j : Fin 2, |GraphAttention.logits zeroF2 zeroK zeroV zeroV i j| ≤ 0) ∧
      twoNodeA 0 0 = 0 ∧ twoNodeA 0 1 = 1 ∧
      (∀ r : Fin 2,
        ∑ c, GraphAttention.attn zeroF2 zeroK zeroV zeroV twoNodeA r c = 1) ∧
      GraphAttention.attn zeroF2 zeroK zeroV zeroV twoNodeA 0 0 < 1 / 10 ^ 9 := by
  have hB : ∀ i j : Fin 2, |GraphAttention.logits zeroF2 zeroK zeroV zeroV i j| ≤ 0 := by
    intro i j
    norm_num [GraphAttention.logits, GraphAttention.features, mmR, leakyReLU,
      zeroF2, zeroK, zeroV]
  have h := claim_C1_attention_masking zeroF2 zeroK zeroV zeroV twoNodeA 0 hB
    (by norm_num) 0 0 1 (by norm_num [twoNodeA]) (by norm_num [twoNodeA])
  exact ⟨hB, by norm_num [twoNodeA], by norm_num [twoNodeA], h.1, h.2.2⟩

/-! ## MeanAggregator -/

/-- `tf.reduce_mean` over one axis of length `k`, on IEEE values: the IEEE
sum divided by the element count.  For `k = 0` this is `0 / 0 = nan`. -/
def reduceMeanFV {k : ℕ} (v : Fin k → FV) : FV :=
  (FV.total (List.ofFn v)).div (FV.fin (k : ℝ))

/-- The elu activation on the reals: `x` for positive `x`, else `e^x - 1`. -/
def eluR (x : ℝ) : ℝ := if 0 < x then x else Real.exp x - 1

/-- The elu activation on IEEE values. -/
def eluFV : FV → FV
  | FV.fin x => FV.fin (eluR x)
  | FV.pinf => FV.pinf
  | FV.ninf => FV.fin (-1)
  | FV.nan => FV.nan

namespace MeanAggregator

/-- `neigh_means = tf.reduce_mean(neigh_vec, axis=1)` (layers.py:298). -/
def neighMeans {b k f2 : ℕ} (neighVec : Fin b → Fin k → Fin f2 → FV) :
    Fin b → Fin f2 → FV :=
  fun i f => reduceMeanFV fun t => neighVec i t f

/-- `MeanAggregator.call` (layers.py:292-310), `concat = False` branch with
`use_bias = True`: `activation(self_vec·self_weights +
reduce_mean(neigh_vec)·neigh_weights + biases)`.  The source applies no
further step — in particular no row normalization — before returning. -/
def callSum {b k f1 f2 u : ℕ} (act : FV → FV) (selfW : Fin f1 → Fin u → FV)
    (neighW : Fin f2 → Fin u → FV) (bias : Fin u → FV)
    (selfVec : Fin b → Fin f1 → FV) (neighVec : Fin b → Fin k → Fin f2 → FV) :
    Fin b → Fin u → FV :=
  fun i j =>
    act (((mmFV selfVec selfW i j).add
      (mmFV (neighMeans neighVec) neighW i j)).add (bias j))

/-- `MeanAggregator.call`, `concat = True` branch: the self and neighbour
paths are concatenated along the feature axis before bias and activation. -/
def callConcat {b k f1 f2 u : ℕ} (act : FV → FV) (selfW : Fin f1 → Fin u → FV)
    (neighW : Fin f2 → Fin u → FV) (bias : Fin (u + u) → FV)
    (selfVec : Fin b → Fin f1 → FV) (neighVec : Fin b → Fin k → Fin f2 → FV) :
    Fin b → Fin (u + u) → FV :=
  fun i j =>
    act ((Fin.addCases (motive := fun _ => FV)
      (fun j1 => mmFV selfVec selfW i j1)
      (fun j2 => mmFV (neighMeans neighVec) neighW i j2) j).add (bias j))

end MeanAggregator

/-- A zero 1×1 IEEE weight matrix. -/
def zeroKFV : Fin 1 → Fin 1 → FV := fun _ _ => FV.fin 0

/-- A zero IEEE bias vector. -/
def zeroVFV : Fin 1 → FV := fun _ => FV.fin 0

/-- A neighbour-feature tensor with an empty neighbour axis. -/
def emptyNeighVec : Fin 1 → Fin 0 → Fin 1 → FV := fun _ t _ => t.elim0

/-- C4: the claim states a node with an empty neighbour set yields a
defined zero fallback and a `nan`-free output.  The source computes
`tf.reduce_mean` over the empty neighbour axis with no guard, which is
`0 / 0 = nan`, and the `nan` propagates through the weights, the sum with
the self path, the bias and the activation to the returned output. -/
theorem claim_C4_empty_neighbor_nan :
    reduceMeanFV (fun t : Fin 0 => emptyNeighVec 0 t 0) = FV.nan ∧
      MeanAggregator.callSum eluFV zeroKFV zeroKFV zeroVFV zeroKFV
        emptyNeighVec 0 0 = FV.nan := by
  constructor
  · norm_num [reduceMeanFV, FV.total, FV.div]
  · norm_num [MeanAggregator.callSum, MeanAggregator.neighMeans, mmFV,
      reduceMeanFV, zeroKFV, zeroVFV, emptyNeighVec, FV.total, List.ofFn_succ,
      FV.add, FV.mul, FV.div, eluFV]

/-- A 1×1 self-feature matrix with entry 2. -/
def selfTwoFV : Fin 1 → Fin 1 → FV := fun _ _ => FV.fin 2

/-- A 1×1 all-ones IEEE weight matrix. -/
def oneKFV : Fin 1 → Fin 1 → FV := fun _ _ => FV.fin 1

/-- A 1×1×1 zero neighbour-feature tensor (one neighbour). -/
def zeroNeighVec1 : Fin 1 → Fin 1 → Fin 1 → FV := fun _ _ _ => FV.fin 0

/-- C8, counterexample: with self feature 2, identity self weight, zero
neighbour contribution, zero bias and elu activation, the returned row is
`(2)`, whose Euclidean norm is `√(2²) = 2 ≠ 1`: the output row is not
L2-normalized.  The source returns `activation(output)` directly
(layers.py:310) with no normalization step. -/
theorem claim_C8_counterexample :
    MeanAggregator.callSum eluFV oneKFV oneKFV zeroVFV selfTwoFV
        zeroNeighVec1 0 0 = FV.fin 2 ∧
      Real.sqrt (2 ^ 2) ≠ 1 := by
  constructor
  · norm_num [MeanAggregator.callSum, MeanAggregator.neighMeans, mmFV,
      reduceMeanFV, selfTwoFV, oneKFV, zeroVFV, zeroNeighVec1, FV.total,
      List.ofFn_succ, FV.add, FV.mul, FV.div, eluFV, eluR]
  · rw [show ((2 : ℝ) ^ 2) = 2 ^ 2 from rfl, Real.sqrt_sq (by norm_num : (0 : ℝ) ≤ 2)]
    norm_num

/-- C8, amended: in the elementwise-sum combine mode with at least one
neighbour and finite inputs, every entry of the returned output equals
`activation(self·W_self + mean(neigh)·W_neigh + bias)` — the activated,
biased combination itself, with no L2 normalization applied. -/
theorem claim_C8_mean_agg_output {b k f1 f2 u : ℕ} (act : FV → FV)
    (actR : ℝ → ℝ) (hact : ∀ x : ℝ, act (FV.fin x) = FV.fin (actR x))
    (selfW : Fin f1 → Fin u → FV) (selfWR : Fin f1 → Fin u → ℝ)
    (hsw : ∀ i j, selfW i j = FV.fin (selfWR i j))
    (neighW : Fin f2 → Fin u → FV) (neighWR : Fin f2 → Fin u → ℝ)
    (hnw : ∀ i j, neighW i j = FV.fin (neighWR i j))
    (bias : Fin u → FV) (biasR : Fin u → ℝ)
    (hbv : ∀ j, bias j = FV.fin (biasR j))
    (selfVec : Fin b → Fin f1 → FV) (selfVecR : Fin b → Fin f1 → ℝ)
    (hsv : ∀ i j, selfVec i j = FV.fin (selfVecR i j))
    (neighVec : Fin b → Fin k → Fin f2 → FV)
    (neighVecR : Fin b → Fin k → Fin f2 → ℝ)
    (hnv : ∀ i t j, neighVec i t j = FV.fin (neighVecR i t j))
    (hk : 0 < k) :
    ∀ i j, MeanAggregator.callSum act selfW neighW bias selfVec neighVec i j =
      FV.fin (actR ((∑ t, selfVecR i t * selfWR t j) +
        (∑ m, (∑ t, neighVecR i t m) / k * neighWR m j) + biasR j)) := by
  intro i j
  have hkR : (k : ℝ) ≠ 0 := Nat.cast_ne_zero.mpr (Nat.pos_iff_ne_zero.mp hk)
  have hmean : ∀ m, MeanAggregator.neighMeans neighVec i m =
      FV.fin ((∑ t, neighVecR i t m) / k) := by
    intro m
    unfold MeanAggregator.neighMeans reduceMeanFV
    rw [congrArg List.ofFn (funext fun t => hnv i t m), FV.total_ofFn_fin]
    simp only [FV.div]
    rw [if_neg hkR]
  have hfneigh : mmFV (MeanAggregator.neighMeans neighVec) neighW i j =
      FV.fin (∑ m, (∑ t, neighVecR i t m) / k * neighWR m j) := by
    unfold mmFV
    rw [congrArg List.ofFn (funext fun m => by rw [hmean, hnw, FV.mul_fin]),
      FV.total_ofFn_fin]
  have hfself : mmFV selfVec selfW i j =
      FV.fin (∑ t, selfVecR i t * selfWR t j) := by
    unfold mmFV
    rw [congrArg List.ofFn (funext fun t => by rw [hsv, hsw, FV.mul_fin]),
      FV.total_ofFn_fin]
  unfold MeanAggregator.callSum
  rw [hfself, hfneigh, FV.add_fin, hbv, FV.add_fin, hact]

/-- Witness for the amended C8 theorem at a 1-node, 1-neighbour, all-zero
configuration with the elu activation. -/
theorem claim_C8_mean_agg_output_witness :
    (∀ x : ℝ, eluFV (FV.fin x) = FV.fin (eluR x)) ∧ 0 < 1 ∧
      (∀ i j : Fin 1,
        MeanAggregator.callSum eluFV zeroKFV zeroKFV zeroVFV zeroKFV
          zeroNeighVec1 i j =
        FV.fin (eluR ((∑ t : Fin 1, (0 : ℝ) * 0) +
          (∑ m : Fin 1, (∑ t : Fin 1, (0 : ℝ)) / ((1 : ℕ) : ℝ) * 0) + 0))) := by
  refine ⟨fun _ => rfl, Nat.one_pos, ?_⟩
  exact claim_C8_mean_agg_output eluFV eluR (fun _ => rfl)
    zeroKFV (fun _ _ => 0) (fun _ _ => rfl)
    zeroKFV (fun _ _ => 0) (fun _ _ => rfl)
    zeroVFV (fun _ => 0) (fun _ => rfl)
    zeroKFV (fun _ _ => 0) (fun _ _ => rfl)
    zeroNeighVec1 (fun _ _ _ => 0) (fun _ _ _ => rfl) Nat.one_pos

/-! ## Recurrent cells -/

/-- The relu activation. -/
def reluR (x : ℝ) : ℝ := max x 0

/-- The nine weight tensors of `GRUCell` (layers.py:389-398). -/
structure GRUW (e u : ℕ) where
  Wz : Fin e → Fin u → ℝ
  Uz : Fin u → Fin u → ℝ
  bz : Fin u → ℝ
  Wr : Fin e → Fin u → ℝ
  Ur : Fin u → Fin u → ℝ
  br : Fin u → ℝ
  Wh : Fin e → Fin u → ℝ
  Uh : Fin u → Fin u → ℝ
  bh : Fin u → ℝ

namespace GRUCell

/-- The update gate `zt` (layers.py:403), computed with the recurrent
activation. -/
def zGate {b e u : ℕ} (rAct : ℝ → ℝ) (w : GRUW e u) (x : Fin b → Fin e → ℝ)
    (h : Fin b → Fin u → ℝ) : Fin b → Fin u → ℝ :=
  fun i j => rAct ((∑ t, x i t * w.Wz t j) + (∑ t, h i t * w.Uz t j) + w.bz j)

/-- The reset gate `rt` (layers.py:406). -/
def rGate {b e u : ℕ} (rAct : ℝ → ℝ) (w : GRUW e u) (x : Fin b → Fin e → ℝ)
    (h : Fin b → Fin u → ℝ) : Fin b → Fin u → ℝ :=
  fun i j => rAct ((∑ t, x i t * w.Wr t j) + (∑ t, h i t * w.Ur t j) + w.br j)

/-- The candidate state `ht_` (layers.py:409); as in the source it is
computed with the *recurrent* activation, not the cell activation. -/
def hCand {b e u : ℕ} (rAct : ℝ → ℝ) (w : GRUW e u) (x : Fin b → Fin e → ℝ)
    (h : Fin b → Fin u → ℝ) : Fin b → Fin u → ℝ :=
  fun i j => rAct ((∑ t, x i t * w.Wh t j) +
    (∑ t, h i t * rGate rAct w x h i t * w.Uh t j) + w.bh j)

/-- `ht = (1 - zt) * state + zt * ht_` (layers.py:412). -/
def nextState {b e u : ℕ} (rAct : ℝ → ℝ) (w : GRUW e u) (x : Fin b → Fin e → ℝ)
    (h : Fin b → Fin u → ℝ) : Fin b → Fin u → ℝ :=
  fun i j => (1 - zGate rAct w x h i j) * h i j +
    zGate rAct w x h i j * hCand rAct w x h i j

/-- `GRUCell.call` (layers.py:400-414) with dropout disabled: returns the
pair `(output, next state)`, both equal to `ht`. -/
def call {b e u : ℕ} (rAct : ℝ → ℝ) (w : GRUW e u) (x : Fin b → Fin e → ℝ)
    (h : Fin b → Fin u → ℝ) :
    (Fin b → Fin u → ℝ) × (Fin b → Fin u → ℝ) :=
  (nextState rAct w x h, nextState rAct w x h)

end GRUCell

/-- C5: with dropout disabled, whenever the computed reset gate and update
gate are identically zero, the returned next hidden state (and output)
equals the previous hidden state exactly: `(1-z)⊙h + z⊙h̃` collapses to
`h`.  The candidate `h̃` is computed with the recurrent activation, as in
the source. -/
theorem claim_C5_gru_identity {b e u : ℕ} (rAct : ℝ → ℝ) (w : GRUW e u)
    (x : Fin b → Fin e → ℝ) (h : Fin b → Fin u → ℝ)
    (hz : ∀ i j, GRUCell.zGate rAct w x h i j = 0)
    (hr : ∀ i j, GRUCell.rGate rAct w x h i j = 0) :
    GRUCell.call rAct w x h = (h, h) := by
  have hnext : GRUCell.nextState rAct w x h = h := by
    funext i j
    unfold GRUCell.nextState
    rw [hz]
    ring
  unfold GRUCell.call
  rw [hnext]

/-- All-zero GRU weights at width 1. -/
def gruW0 : GRUW 1 1 :=
  ⟨fun _ _ => 0, fun _ _ => 0, fun _ => 0, fun _ _ => 0, fun _ _ => 0,
    fun _ => 0, fun _ _ => 0, fun _ _ => 0, fun _ => 0⟩

/-- A 1×1 zero input row. -/
def xZero1 : Fin 1 → Fin 1 → ℝ := fun _ _ => 0

/-- A 1×1 state with value 5. -/
def hFive : Fin 1 → Fin 1 → ℝ := fun _ _ => 5

/-- Witness for C5: with relu as the recurrent activation, all-zero
weights, zero input and state 5, both gates are 0 and the cell returns the
state unchanged. -/
theorem claim_C5_gru_identity_witness :
    (∀ i j, GRUCell.zGate reluR gruW0 xZero1 hFive i j = 0) ∧
      (∀ i j, GRUCell.rGate reluR gruW0 xZero1 hFive i j = 0) ∧
      GRUCell.call reluR gruW0 xZero1 hFive = (hFive, hFive) := by
  have hz : ∀ i j, GRUCell.zGate reluR gruW0 xZero1 hFive i j = 0 := by
    intro i j
    norm_num [GRUCell.zGate, gruW0, xZero1, hFive, reluR]
  have hr : ∀ i j, GRUCell.rGate reluR gruW0 xZero1 hFive i j = 0 := by
    intro i j
    norm_num [GRUCell.rGate, gruW0, xZero1, hFive, reluR]
  exact ⟨hz, hr, claim_C5_gru_identity reluR gruW0 xZero1 hFive hz hr⟩

/-- The twelve gate weight tensors shared by `LSTMCell` (layers.py:444-455)
and `TLSTMCell` (layers.py:513-524). -/
structure LSTMW (e u : ℕ) where
  Wf : Fin e → Fin u → ℝ
  Uf : Fin u → Fin u → ℝ
  bf : Fin u → ℝ
  Wi : Fin e → Fin u → ℝ
  Ui : Fin u → Fin u → ℝ
  bi : Fin u → ℝ
  Wo : Fin e → Fin u → ℝ
  Uo : Fin u → Fin u → ℝ
  bo : Fin u → ℝ
  Wc : Fin e → Fin u → ℝ
  Uc : Fin u → Fin u → ℝ
  bc : Fin u → ℝ

namespace LSTMCell

/-- The forget gate `ft` (layers.py:465). -/
def fGate {b e u : ℕ} (rAct : ℝ → ℝ) (w : LSTMW e u) (x : Fin b → Fin e → ℝ)
    (h : Fin b → Fin u → ℝ) : Fin b → Fin u → ℝ :=
  fun i j => rAct ((∑ t, x i t * w.Wf t j) + (∑ t, h i t * w.Uf t j) + w.bf j)

/-- The input gate `it` (layers.py:468). -/
def iGate {b e u : ℕ} (rAct : ℝ → ℝ) (w : LSTMW e u) (x : Fin b → Fin e → ℝ)
    (h : Fin b → Fin u → ℝ) : Fin b → Fin u → ℝ :=
  fun i j => rAct ((∑ t, x i t * w.Wi t j) + (∑ t, h i t * w.Ui t j) + w.bi j)

/-- The output gate `ot` (layers.py:471). -/
def oGate {b e u : ℕ} (rAct : ℝ → ℝ) (w : LSTMW e u) (x : Fin b → Fin e → ℝ)
    (h : Fin b → Fin u → ℝ) : Fin b → Fin u → ℝ :=
  fun i j => rAct ((∑ t, x i t * w.Wo t j) + (∑ t, h i t * w.Uo t j) + w.bo j)

/-- The candidate cell `ct_` (layers.py:474); the source computes it with
the recurrent activation. -/
def cCand {b e u : ℕ} (rAct : ℝ → ℝ) (w : LSTMW e u) (x : Fin b → Fin e → ℝ)
    (h : Fin b → Fin u → ℝ) : Fin b → Fin u → ℝ :=
  fun i j => rAct ((∑ t, x i t * w.Wc t j) + (∑ t, h i t * w.Uc t j) + w.bc j)

/-- `LSTMCell.call` (layers.py:457-479) with dropout disabled: the state
`[h ∥ c]` is modelled as the pair `(h, c)`; returns `(ht, (ht, ct))`
collapsed to `(ht, ct)` since the output equals the new hidden state. -/
def call {b e u : ℕ} (act rAct : ℝ → ℝ) (w : LSTMW e u)
    (x : Fin b → Fin e → ℝ) (h c : Fin b → Fin u → ℝ) :
    (Fin b → Fin u → ℝ) × (Fin b → Fin u → ℝ) :=
  let ct := fun i j => fGate rAct w x h i j * c i j +
    iGate rAct w x h i j * cCand rAct w x h i j
  (fun i j => oGate rAct w x h i j * act (ct i j), ct)

end LSTMCell

namespace TLSTMCell

/-- The short-term memory component `cs = activation(c·Wd + bd)`
(layers.py:535). -/
def csMem {b u : ℕ} (act : ℝ → ℝ) (Wd : Fin u → Fin u → ℝ) (bd : Fin u → ℝ)
    (c : Fin b → Fin u → ℝ) : Fin b → Fin u → ℝ :=
  fun i j => act ((∑ t, c i t * Wd t j) + bd j)

/-- The decayed short-term component `cs_ = cs * (1 / log(2.7183 + Δt))`
(layers.py:536).  The source divides by the logarithm of the literal
`2.7183` plus the time gap — a hard-coded approximation of e. -/
def csDecayed {b u : ℕ} (act : ℝ → ℝ) (Wd : Fin u → Fin u → ℝ)
    (bd : Fin u → ℝ) (c : Fin b → Fin u → ℝ) (delta : Fin b → ℝ) :
    Fin b → Fin u → ℝ :=
  fun i j => csMem act Wd bd c i j * (1 / Real.log (2.7183 + delta i))

/-- The adjusted cell memory `c_adjusted = (c - cs) + cs_`
(layers.py:537-538). -/
def cAdjusted {b u : ℕ} (act : ℝ → ℝ) (Wd : Fin u → Fin u → ℝ)
    (bd : Fin u → ℝ) (c : Fin b → Fin u → ℝ) (delta : Fin b → ℝ) :
    Fin b → Fin u → ℝ :=
  fun i j => c i j - csMem act Wd bd c i j + csDecayed act Wd bd c delta i j

/-- `TLSTMCell.call` (layers.py:526-554) with dropout disabled: the cell
memory is first adjusted by the time decay, then the standard gates run on
it.  (The source additionally wraps the input in a singleton list inside
`tf.slice` at layers.py:533, a rank mismatch; the evident intended slice of
the input row is modelled.) -/
def call {b e u : ℕ} (act rAct : ℝ → ℝ) (w : LSTMW e u)
    (Wd : Fin u → Fin u → ℝ) (bd : Fin u → ℝ) (x : Fin b → Fin e → ℝ)
    (delta : Fin b → ℝ) (h c : Fin b → Fin u → ℝ) :
    (Fin b → Fin u → ℝ) × (Fin b → Fin u → ℝ) :=
  let ct := fun i j => LSTMCell.fGate rAct w x h i j *
      cAdjusted act Wd bd c delta i j +
    LSTMCell.iGate rAct w x h i j * LSTMCell.cCand rAct w x h i j
  (fun i j => LSTMCell.oGate rAct w x h i j * act (ct i j), ct)

end TLSTMCell

/-- Width-1 LSTM weights that open the forget and output gates and close
the input gate when the recurrent activation is the identity: every weight
is zero except `bf = bo = 1`. -/
def lstmWGate : LSTMW 1 1 :=
  ⟨fun _ _ => 0, fun _ _ => 0, fun _ => 1, fun _ _ => 0, fun _ _ => 0,
    fun _ => 0, fun _ _ => 0, fun _ _ => 0, fun _ => 1, fun _ _ => 0,
    fun _ _ => 0, fun _ => 0⟩

/-- A 1×1 cell memory with value 1. -/
def cOne : Fin 1 → Fin 1 → ℝ := fun _ _ => 1

/-- C7: the claim states the decay divisor is `ln(e + Δt)`, which tends to
1 as `Δt → 0`, so the cell output converges to the plain LSTM output.  The
source divides by `ln(2.7183 + Δt)` (layers.py:536) with the literal
`2.7183 ≠ e`; at identity activations, unit cell memory, `Wd = 1` and
gates opened as in `lstmWGate`, the time-aware output converges (as
`Δt → 0`) to `(ln 2.7183)⁻¹`, while the plain cell output is exactly 1 —
and `(ln 2.7183)⁻¹ ≠ 1` since `2.7183 ≠ e`. -/
theorem claim_C7_tlstm_decay_divergence :
    Filter.Tendsto
      (fun d : ℝ => (TLSTMCell.call id id lstmWGate (fun _ _ => 1)
        (fun _ => 0) xZero1 (fun _ => d) xZero1 cOne).1 0 0)
      (nhds 0) (nhds ((Real.log 2.7183)⁻¹)) ∧
      (LSTMCell.call id id lstmWGate xZero1 xZero1 cOne).1 0 0 = 1 ∧
      (Real.log 2.7183)⁻¹ ≠ 1 := by
  have hfun : (fun d : ℝ => (TLSTMCell.call id id lstmWGate (fun _ _ => 1)
      (fun _ => 0) xZero1 (fun _ => d) xZero1 cOne).1 0 0) =
      fun d : ℝ => (Real.log (2.7183 + d))⁻¹ := by
    funext d
    norm_num [TLSTMCell.call, TLSTMCell.cAdjusted, TLSTMCell.csDecayed,
      TLSTMCell.csMem, LSTMCell.fGate, LSTMCell.iGate, LSTMCell.oGate,
      LSTMCell.cCand, lstmWGate, xZero1, cOne]
  have hlogpos : 0 < Real.log 2.7183 := Real.log_pos (by norm_num)
  constructor
  · rw [hfun]
    have hcont : ContinuousAt (fun d : ℝ => (Real.log (2.7183 + d))⁻¹) 0 := by
      have h1 : ContinuousAt (fun d : ℝ => (2.7183 : ℝ) + d) 0 :=
        (continuous_const.add continuous_id).continuousAt
      have h2 : ContinuousAt Real.log ((2.7183 : ℝ) + 0) :=
        Real.continuousAt_log (by norm_num)
      have h3 : ContinuousAt (fun d : ℝ => Real.log (2.7183 + d)) 0 :=
        h2.comp h1
      apply h3.inv₀
      rw [show (2.7183 : ℝ) + 0 = 2.7183 from by norm_num]
      exact ne_of_gt hlogpos
    have := hcont.tendsto
    rwa [show (2.7183 : ℝ) + 0 = 2.7183 from by norm_num] at this
  refine ⟨?_, ?_⟩
  · norm_num [LSTMCell.call, LSTMCell.fGate, LSTMCell.iGate, LSTMCell.oGate,
      LSTMCell.cCand, lstmWGate, xZero1, cOne]
  · intro habs
    have hlog : Real.log 2.7183 = 1 := by
      rwa [inv_eq_one] at habs
    have hexp : Real.exp 1 = 2.7183 := by
      rw [← hlog, Real.exp_log (by norm_num)]
    have hlt := Real.exp_one_lt_d9
    rw [hexp] at hlt
    norm_num at hlt

/-! ## GCRN1Cell and the GCNFilter constructor -/

namespace GraphAttention

/-- One attention head's output (layers.py:142-147):
`activation(attention · features + bias)` with dropout disabled. -/
def headOutput {n f u : ℕ} (act : ℝ → ℝ) (X : Fin n → Fin f → ℝ)
    (kernel : Fin f → Fin u → ℝ) (aSelf aNeigh : Fin u → ℝ)
    (bias : Fin u → ℝ) (A : Fin n → Fin n → ℝ) : Fin n → Fin u → ℝ :=
  fun i j => act ((∑ t, attn X kernel aSelf aNeigh A i t * features X kernel t j) +
    bias j)

/-- `GraphAttention.call` (layers.py:118-154) with the default mean
head-combination: the elementwise mean over the stacked head outputs. -/
def callMean {n f u : ℕ} (act : ℝ → ℝ) (heads : ℕ)
    (kernels : Fin heads → Fin f → Fin u → ℝ)
    (aSelfs aNeighs : Fin heads → Fin u → ℝ)
    (biases : Fin heads → Fin u → ℝ) (X : Fin n → Fin f → ℝ)
    (A : Fin n → Fin n → ℝ) : Fin n → Fin u → ℝ :=
  fun i j => (∑ hd, headOutput act X (kernels hd) (aSelfs hd) (aNeighs hd)
    (biases hd) A i j) / heads

end GraphAttention

namespace GCRN1Cell

/-- `x_at_t = tf.slice(input_at_t, [0, 0], [node_size, embed_size])`
(layers.py:604): the first `e` columns of the step input. -/
def xSlice {nsz e : ℕ} (input : Fin nsz → Fin (e + nsz) → ℝ) :
    Fin nsz → Fin e → ℝ :=
  fun i j => input i (Fin.castAdd nsz j)

/-- `a_at_t = tf.slice(input_at_t, [0, embed_size], [node_size, node_size])`
(layers.py:605): the trailing `node_size` columns, the per-step adjacency. -/
def aSlice {nsz e : ℕ} (input : Fin nsz → Fin (e + nsz) → ℝ) :
    Fin nsz → Fin nsz → ℝ :=
  fun i j => input i (Fin.natAdd e j)

/-- `GCRN1Cell.call` (layers.py:602-620) in `"gat"` mode with dropout
disabled: the attention operator is applied once to the sliced features and
adjacency, and its output drives the gate updates transcribed from
layers.py:609-618. -/
def callGat {nsz e u : ℕ} (act rAct : ℝ → ℝ) (heads : ℕ)
    (kernels : Fin heads → Fin e → Fin u → ℝ)
    (aSelfs aNeighs : Fin heads → Fin u → ℝ) (biases : Fin heads → Fin u → ℝ)
    (w : GRUW u u) (input : Fin nsz → Fin (e + nsz) → ℝ)
    (h : Fin nsz → Fin u → ℝ) :
    (Fin nsz → Fin u → ℝ) × (Fin nsz → Fin u → ℝ) :=
  let inp := GraphAttention.callMean act heads kernels aSelfs aNeighs biases
    (xSlice input) (aSlice input)
  let zt := fun i j => rAct ((∑ t, inp i t * w.Wz t j) +
    (∑ t, h i t * w.Uz t j) + w.bz j)
  let rt := fun i j => rAct ((∑ t, inp i t * w.Wr t j) +
    (∑ t, h i t * w.Ur t j) + w.br j)
  let ht2 := fun i j => rAct ((∑ t, inp i t * w.Wh t j) +
    (∑ t, h i t * rt i t * w.Uh t j) + w.bh j)
  let ht := fun i j => (1 - zt i j) * h i j + zt i j * ht2 i j
  (ht, ht)

/-- The keyword arguments `GCRN1Cell.build` passes when constructing its
graph operator in the non-"gat" branch (layers.py:589-590). -/
def gcnBranchKwargs : List String :=
  ["kernel_initializer", "dropout_prob", "bias_initializer"]

end GCRN1Cell

namespace GraphConvolution

/-- The keyword parameters accepted by `GraphConvolution.__init__`
(layers.py:159-160); there is no `dropout_prob` parameter and no catch-all
keyword dictionary. -/
def initKeywordParams : List String :=
  ["units", "activation", "use_bias", "kernel_initializer", "bias_initializer"]

end GraphConvolution

/-- A Python call raises `TypeError` exactly when it passes a keyword
argument the callee does not accept. -/
def pyUnexpectedKwarg (passed accepted : List String) : Bool :=
  passed.any fun s => !(accepted.contains s)

/-- C9: the claim covers both operator modes of the shared-operator
graph-recurrent cell.  The claim fails for the `"gcn"` mode: `build`
passes the keyword `dropout_prob` to `GraphConvolution`, which does not
accept it, so constructing the cell raises `TypeError` before any step can
run.  For the `"gat"` mode the claim holds: the step applies exactly one
graph-attention operator to the sliced raw features and adjacency, and the
resulting embedding drives the standard gated-recurrent-unit update — the
gate computation transcribed from `GCRN1Cell.call` coincides with
`GRUCell.call` applied to the operator output. -/
theorem claim_C9_gcrn1_shared_operator :
    pyUnexpectedKwarg GCRN1Cell.gcnBranchKwargs
        GraphConvolution.initKeywordParams = true ∧
      ∀ (nsz e u : ℕ) (act rAct : ℝ → ℝ) (heads : ℕ)
        (kernels : Fin heads → Fin e → Fin u → ℝ)
        (aSelfs aNeighs : Fin heads → Fin u → ℝ)
        (biases : Fin heads → Fin u → ℝ) (w : GRUW u u)
        (input : Fin nsz → Fin (e + nsz) → ℝ) (h : Fin nsz → Fin u → ℝ),
        GCRN1Cell.callGat act rAct heads kernels aSelfs aNeighs biases w
            input h =
          GRUCell.call rAct w
            (GraphAttention.callMean act heads kernels aSelfs aNeighs biases
              (GCRN1Cell.xSlice input) (GCRN1Cell.aSlice input)) h := by
  exact ⟨rfl, fun _ _ _ _ _ _ _ _ _ _ _ _ _ => rfl⟩

/-- The two processing branches `GCNFilter.__init__` can select. -/
inductive GCNProcessKind where
  | localpool
  | chebyshev
deriving DecidableEq

namespace GCNFilter

/-- `GCNFilter.__init__` (layers.py:197-205): `"localpool"` selects the
localpool path and asserts `support ≥ 1`; every other mode string selects
the chebyshev path and asserts `support ≥ 2`.  A failed `assert` is
modelled as an error result. -/
def init (mode : String) (support : ℤ) : Except String GCNProcessKind :=
  if mode = "localpool" then
    if 1 ≤ support then Except.ok GCNProcessKind.localpool
    else Except.error "AssertionError"
  else
    if 2 ≤ support then Except.ok GCNProcessKind.chebyshev
    else Except.error "AssertionError"

end GCNFilter

/-- C10: every mode string other than `"localpool"` — including arbitrary
misspellings — selects the chebyshev processing path, behaves identically
to the mode `"chebyshev"`, succeeds exactly when `support ≥ 2`, and is
never rejected as an unknown mode. -/
theorem claim_C10_unknown_mode (mode : String) (hmode : mode ≠ "localpool")
    (support : ℤ) :
    GCNFilter.init mode support = GCNFilter.init "chebyshev" support ∧
      (2 ≤ support →
        GCNFilter.init mode support = Except.ok GCNProcessKind.chebyshev) ∧
      (support < 2 →
        GCNFilter.init mode support = Except.error "AssertionError") := by
  unfold GCNFilter.init
  rw [if_neg hmode, if_neg (by decide : ¬("chebyshev" = "localpool"))]
  refine ⟨rfl, fun hsup => ?_, fun hsup => ?_⟩
  · rw [if_pos hsup]
  · rw [if_neg (not_le.mpr hsup)]

/-- Witness for C10 at the misspelled mode `"localpoool"` with support 2. -/
theorem claim_C10_unknown_mode_witness :
    "localpoool" ≠ "localpool" ∧
      GCNFilter.init "localpoool" 2 = Except.ok GCNProcessKind.chebyshev :=
  ⟨by decide,
    (claim_C10_unknown_mode "localpoool" (by decide) 2).2.1 (by decide)⟩

end

end NE
